import Mathlib

/-!
Verification of the word-frequency analysis pipeline of the text-analyzer
repository (Rust binaries src/bin/file_parser.rs and src/bin/main.rs).

The pipeline is embedded shallowly.  A text is a `List α` of characters and
the character-level operations of the Rust standard library
(char::is_alphanumeric, char::is_whitespace, char::to_lowercase,
char::len_utf8) are collected in a `CharOps α` record, so that every theorem
is stated for an arbitrary character model and the concrete instance
`rustCharOps` below records the actual Unicode data for the code points this
development evaluates on.  Rust strings are `List α`; `str::len` (a length
in UTF-8 bytes) is `str_len`, the per-character byte width being
`CharOps.utf8Len`.  A `HashMap<String, usize>` built by repeated
`*map.entry(w).or_insert(0) += 1` is represented by its association list in
first-insertion order (`updateCount` below); the mapping it denotes is
independent of the hash function, while the map's ITERATION order is
unspecified, so every consumer of the iteration order (`max_by_count`,
modelling `iter().max_by_key(|(_, count)| count)`) is stated on an arbitrary
permutation of that association list.
-/

set_option linter.unusedSectionVars false

namespace WordFreq

variable {α : Type} [DecidableEq α]

/-- The character-level operations of Rust's `char` used by the pipeline:
`is_alphanumeric`, `is_whitespace`, the full lowercasing `to_lowercase`
(which returns a SEQUENCE of characters: a single character may lowercase to
several), and `len_utf8`, the width of the character in UTF-8 bytes. -/
structure CharOps (α : Type) where
  isAlphanumeric : α → Bool
  isWhitespace : α → Bool
  toLowercase : α → List α
  utf8Len : α → Nat

/-- The two filtering fields of `Config` in file_parser.rs (and the two
local options of main.rs).  `file_path` only feeds the excluded I/O layer
and is omitted.  `min_length` comes from `--min-length N`, `starts_with`
from `--starts-with C` (`Config::from_args` stores the FIRST character of
the argument exactly as supplied, without any normalization). -/
structure Config (α : Type) where
  min_length : Option Nat
  starts_with : Option α

/-- Helper for `split_whitespace`: walk the text, `acc` holding the
(reversed) current run of non-whitespace characters. -/
def split_whitespace_go (ws : α → Bool) : List α → List α → List (List α)
  | [], acc => if acc = [] then [] else [acc.reverse]
  | c :: cs, acc =>
    if ws c then
      if acc = [] then split_whitespace_go ws cs []
      else acc.reverse :: split_whitespace_go ws cs []
    else split_whitespace_go ws cs (c :: acc)

/-- Rust `str::split_whitespace`: the maximal non-whitespace runs of the
text, in order; runs of whitespace (of any length) separate them and empty
candidates are never produced. -/
def split_whitespace (ws : α → Bool) (text : List α) : List (List α) :=
  split_whitespace_go ws text []

/-- file_parser.rs `clean_word`: keep only alphanumeric characters, then
lowercase each survivor with the full (sequence-valued) lowercasing —
`word.chars().filter(|c| c.is_alphanumeric()).flat_map(|c| c.to_lowercase()).collect()`. -/
def clean_word (ops : CharOps α) (word : List α) : List α :=
  (word.filter ops.isAlphanumeric).flatMap ops.toLowercase

/-- Rust `str::len` of a word: the sum of the UTF-8 byte widths of its
characters (NOT the number of characters). -/
def str_len (ops : CharOps α) (word : List α) : Nat :=
  (word.map ops.utf8Len).sum

/-- Rust `str::starts_with(c : char)`: the first character equals `c`. -/
def starts_with_char (c : α) : List α → Bool
  | [] => false
  | d :: _ => decide (d = c)

/-- The `long_enough` component of the filter closure in `analyze_text`
(file_parser.rs) and `main` (main.rs):
`config.min_length.map_or(true, |n| word.len() >= n)`.  `word.len()` is the
byte length `str_len`. -/
def long_enough (ops : CharOps α) (config : Config α) (word : List α) : Bool :=
  match config.min_length with
  | none => true
  | some n => decide (n ≤ str_len ops word)

/-- The `starts_correct` component of the filter closure:
`config.starts_with.map_or(true, |c| word.starts_with(c))`. -/
def starts_correct (config : Config α) (word : List α) : Bool :=
  match config.starts_with with
  | none => true
  | some c => starts_with_char c word

/-- The filter closure of `analyze_text` (identical in main.rs):
`long_enough && starts_correct`. -/
def filter_pred (ops : CharOps α) (config : Config α) (word : List α) : Bool :=
  long_enough ops config word && starts_correct config word

/-- One step of the aggregation `*acc.entry(word).or_insert(0) += 1` on the
association-list view of the HashMap: increment the count of `word` if
present, otherwise append `(word, 1)`. -/
def updateCount : List (List α × Nat) → List α → List (List α × Nat)
  | [], w => [(w, 1)]
  | (k, v) :: rest, w =>
    if w = k then (k, v + 1) :: rest else (k, v) :: updateCount rest w

/-- file_parser.rs `analyze_text`: split on whitespace, normalize with
`clean_word`, drop empty results, apply the filter closure, and fold the
survivors into the frequency table. -/
def analyze_text (ops : CharOps α) (text : List α) (config : Config α) :
    List (List α × Nat) :=
  ((((split_whitespace ops.isWhitespace text).map (clean_word ops)).filter
      (fun w => !w.isEmpty)).filter
      (fun w => filter_pred ops config w)).foldl updateCount []

/-- Rust `str::trim_matches(p)`: remove the maximal prefix and the maximal
suffix of characters satisfying `p` (interior characters are kept). -/
def trim_matches (p : α → Bool) (word : List α) : List α :=
  ((word.dropWhile p).reverse.dropWhile p).reverse

/-- The extra Unicode data that Rust's `str::to_lowercase` uses beyond the
character-wise `char::to_lowercase`: the function hard-codes the one
contextual mapping of SpecialCasing.txt, the Final_Sigma rule for the Greek
capital sigma U+03A3 (rust-lang/rust issue 26035).  `capitalSigma`
recognizes U+03A3; `cased` and `caseIgnorable` are the Unicode Cased and
Case_Ignorable properties consulted by the word-boundary test;
`finalSmallSigma` is ς (U+03C2), pushed at a word end, and `smallSigma` is
σ (U+03C3), pushed elsewhere. -/
structure SigmaCasing (α : Type) where
  capitalSigma : α → Bool
  cased : α → Bool
  caseIgnorable : α → Bool
  smallSigma : α
  finalSmallSigma : α

/-- `case_ignorable_then_cased` of Rust's `str::to_lowercase`: skip
Case_Ignorable characters; is the first remaining character Cased? -/
def case_ignorable_then_cased (sig : SigmaCasing α) (l : List α) : Bool :=
  match l.dropWhile sig.caseIgnorable with
  | [] => false
  | c :: _ => sig.cased c

/-- Helper for `str_to_lowercase`: `before` holds the characters before the
current position, nearest first (Rust walks `from[..i].chars().rev()`),
`rest` the characters still to process. -/
def str_to_lowercase_go (ops : CharOps α) (sig : SigmaCasing α) :
    List α → List α → List α
  | _, [] => []
  | before, c :: rest =>
    (if sig.capitalSigma c then
      if case_ignorable_then_cased sig before &&
          !case_ignorable_then_cased sig rest then
        [sig.finalSmallSigma]
      else [sig.smallSigma]
    else ops.toLowercase c) ++ str_to_lowercase_go ops sig (c :: before) rest

/-- Rust `str::to_lowercase`: character-wise `char::to_lowercase`, except
that the capital sigma U+03A3 is mapped by the hard-coded Final_Sigma rule —
to ς when a Cased character precedes it (skipping Case_Ignorable ones) and
no Cased character follows it (again skipping Case_Ignorable ones), and to
σ otherwise. -/
def str_to_lowercase (ops : CharOps α) (sig : SigmaCasing α) (s : List α) :
    List α :=
  str_to_lowercase_go ops sig [] s

/-- The normalization of main.rs:
`.map(|w| w.trim_matches(|c: char| !c.is_alphanumeric())).map(|w| w.to_lowercase())` —
trim non-alphanumeric characters from both ends only (keeping interior
ones), then lowercase the remaining string with `str::to_lowercase`. -/
def normalize_main (ops : CharOps α) (sig : SigmaCasing α) (word : List α) :
    List α :=
  str_to_lowercase ops sig (trim_matches (fun c => !ops.isAlphanumeric c) word)

/-- The word-counting pipeline of main.rs: identical to `analyze_text`
except that normalization is `normalize_main` (trim ends, keep interior,
string-level lowercasing) instead of `clean_word` (drop every
non-alphanumeric character, character-wise lowercasing). -/
def analyze_text_main (ops : CharOps α) (sig : SigmaCasing α) (text : List α)
    (config : Config α) : List (List α × Nat) :=
  ((((split_whitespace ops.isWhitespace text).map
      (normalize_main ops sig)).filter
      (fun w => !w.isEmpty)).filter
      (fun w => filter_pred ops config w)).foldl updateCount []

/-- `display_stats` / main.rs: `let total_words: usize = freqs.values().sum();`. -/
def total_words (freqs : List (List α × Nat)) : Nat :=
  (freqs.map Prod.snd).sum

/-- `display_stats` / main.rs: `let unique_words = freqs.len();`. -/
def unique_words (freqs : List (List α × Nat)) : Nat :=
  freqs.length

/-- One step of `Iterator::max_by_key(|&(_, count)| count)`: keep the later
element on ties (Rust documents that `max_by_key` returns the LAST of
several equally maximal elements). -/
def max_step {β : Type} (acc : Option (β × Nat)) (p : β × Nat) : Option (β × Nat) :=
  match acc with
  | none => some p
  | some q => if q.2 ≤ p.2 then some p else some q

/-- `freqs.iter().max_by_key(|&(_, count)| count)` applied to ONE iteration
order of the map.  The HashMap's iteration order is an unspecified
permutation of the table (it varies between runs and platforms), so the
word the program reports is `max_by_count l` for some unspecified
permutation `l` of the association list built by `updateCount`. -/
def max_by_count {β : Type} (l : List (β × Nat)) : Option (β × Nat) :=
  l.foldl max_step none

/-- The branch printed last by `display_stats` (and by main.rs): the
most-common line when the table is nonempty, otherwise the literal fallback
line. -/
inductive StatLine (α : Type) where
  | mostCommon (word : List α) (count : Nat)
  | message (text : String)
deriving DecidableEq

/-- `if let Some((word, count)) = most_common { ... } else { ... }` of
`display_stats`: which final line is printed, for a given iteration order
`freqs` of the table. -/
def display_last_line (freqs : List (List α × Nat)) : StatLine α :=
  match max_by_count freqs with
  | some (w, c) => StatLine.mostCommon w c
  | none => StatLine.message "No words found after filtering."

/-- The character operations of the Rust standard library, embedded for the
code points this development evaluates on: the ASCII range, U+00E9 (é),
U+0130 (İ, Latin capital I with dot above), U+0307 (combining dot above),
and the Greek letters U+0391 (capital alpha), U+03A3 (capital sigma),
U+03B1 (small alpha), U+03C2 (final small sigma), U+03C3 (small sigma).
The Unicode data behind the non-ASCII entries: U+00E9 is a lowercase
letter (alphanumeric, fixed by to_lowercase, 2 bytes in UTF-8); U+0130 is
an uppercase letter whose full lowercase mapping is the two-character
sequence U+0069 U+0307 (SpecialCasing.txt; it is the example in the Rust
documentation of `char::to_lowercase`); U+0307 is a nonspacing mark
(general category Mn), hence neither alphabetic nor numeric, so
`char::is_alphanumeric` is false on it, and it is fixed by to_lowercase;
the Greek letters are alphabetic, `char::to_lowercase` maps U+0391 to
U+03B1 and U+03A3 to U+03C3 (the context-free mapping of UnicodeData.txt —
the final-sigma variant U+03C2 appears only at the string level, see
`SigmaCasing`), and the lowercase U+03B1, U+03C2, U+03C3 are fixed.
`utf8Len` is the UTF-8 width determined by the code point.  `isWhitespace`
lists the ASCII whitespace characters (the inputs used here contain no
non-ASCII whitespace). -/
def rustCharOps : CharOps Char where
  isAlphanumeric c :=
    decide ((48 ≤ c.toNat ∧ c.toNat ≤ 57) ∨ (65 ≤ c.toNat ∧ c.toNat ≤ 90) ∨
      (97 ≤ c.toNat ∧ c.toNat ≤ 122) ∨ c.toNat = 0xE9 ∨ c.toNat = 0x130 ∨
      c.toNat = 0x391 ∨ c.toNat = 0x3A3 ∨ c.toNat = 0x3B1 ∨
      c.toNat = 0x3C2 ∨ c.toNat = 0x3C3)
  isWhitespace c :=
    decide (c.toNat = 32 ∨ c.toNat = 9 ∨ c.toNat = 10 ∨ c.toNat = 13 ∨
      c.toNat = 11 ∨ c.toNat = 12)
  toLowercase c :=
    if 65 ≤ c.toNat ∧ c.toNat ≤ 90 then [Char.ofNat (c.toNat + 32)]
    else if c.toNat = 0x130 then [Char.ofNat 0x69, Char.ofNat 0x307]
    else if c.toNat = 0x391 then [Char.ofNat 0x3B1]
    else if c.toNat = 0x3A3 then [Char.ofNat 0x3C3]
    else [c]
  utf8Len c :=
    if c.toNat < 0x80 then 1 else if c.toNat < 0x800 then 2
    else if c.toNat < 0x10000 then 3 else 4

/-- The Final_Sigma data of Rust's `str::to_lowercase`, for the code points
this development evaluates on.  `capitalSigma` recognizes U+03A3 exactly
(the Rust source compares the character against the capital sigma
literal).  Cased characters among these code points: the ASCII letters,
U+00E9, U+0130 and the five Greek letters (all of general category Lu or
Ll); digits, punctuation and whitespace are not Cased.  Case_Ignorable
characters among these code points: U+0307 (Mn) and the apostrophe U+0027
(Word_Break property Single_Quote); no other code point used here is
Case_Ignorable. -/
def rustSigmaCasing : SigmaCasing Char where
  capitalSigma c := decide (c.toNat = 0x3A3)
  cased c :=
    decide ((65 ≤ c.toNat ∧ c.toNat ≤ 90) ∨ (97 ≤ c.toNat ∧ c.toNat ≤ 122) ∨
      c.toNat = 0xE9 ∨ c.toNat = 0x130 ∨ c.toNat = 0x391 ∨
      c.toNat = 0x3A3 ∨ c.toNat = 0x3B1 ∨ c.toNat = 0x3C2 ∨ c.toNat = 0x3C3)
  caseIgnorable c := decide (c.toNat = 0x307 ∨ c.toNat = 39)
  smallSigma := Char.ofNat 0x3C3
  finalSmallSigma := Char.ofNat 0x3C2

/-- The character list of a Lean string literal (used to write concrete
inputs). -/
def chars (s : String) : List Char :=
  s.data

/-! ## Helper lemmas about the embedded operations -/

/-- Every character of a candidate token produced by `split_whitespace_go`
comes from the remaining text or from the accumulator. -/
theorem split_go_chars (ws : α → Bool) (text : List α) :
    ∀ (acc : List α), ∀ t ∈ split_whitespace_go ws text acc, ∀ c ∈ t,
      c ∈ text ∨ c ∈ acc := by
  induction text with
  | nil =>
    intro acc t ht c hc
    simp only [split_whitespace_go] at ht
    by_cases hacc : acc = []
    · rw [if_pos hacc] at ht
      exact absurd ht (List.not_mem_nil t)
    · rw [if_neg hacc, List.mem_singleton] at ht
      subst ht
      exact Or.inr (List.mem_reverse.mp hc)
  | cons d cs ih =>
    intro acc t ht c hc
    simp only [split_whitespace_go] at ht
    by_cases hws : ws d
    · rw [if_pos hws] at ht
      by_cases hacc : acc = []
      · rw [if_pos hacc] at ht
        rcases ih [] t ht c hc with h | h
        · exact Or.inl (List.mem_cons_of_mem d h)
        · exact absurd h (List.not_mem_nil c)
      · rw [if_neg hacc] at ht
        rcases List.mem_cons.mp ht with h | h
        · subst h
          exact Or.inr (List.mem_reverse.mp hc)
        · rcases ih [] t h c hc with h2 | h2
          · exact Or.inl (List.mem_cons_of_mem d h2)
          · exact absurd h2 (List.not_mem_nil c)
    · rw [if_neg hws] at ht
      rcases ih (d :: acc) t ht c hc with h | h
      · exact Or.inl (List.mem_cons_of_mem d h)
      · rcases List.mem_cons.mp h with h2 | h2
        · exact Or.inl (List.mem_cons.mpr (Or.inl h2))
        · exact Or.inr h2

/-- Every character of a candidate token of `split_whitespace` is a
character of the text. -/
theorem split_whitespace_chars (ws : α → Bool) (text : List α) :
    ∀ t ∈ split_whitespace ws text, ∀ c ∈ t, c ∈ text := by
  intro t ht c hc
  rcases split_go_chars ws text [] t ht c hc with h | h
  · exact h
  · exact absurd h (List.not_mem_nil c)

/-- Every character of `clean_word ops w` lies in the lowercasing of some
alphanumeric character of `w`. -/
theorem clean_word_chars (ops : CharOps α) (w : List α) :
    ∀ d ∈ clean_word ops w,
      ∃ c ∈ w, ops.isAlphanumeric c = true ∧ d ∈ ops.toLowercase c := by
  intro d hd
  rw [clean_word, List.mem_flatMap] at hd
  obtain ⟨c, hc, hdc⟩ := hd
  rw [List.mem_filter] at hc
  exact ⟨c, hc.1, hc.2, hdc⟩

/-- `clean_word` fixes a word all of whose characters are alphanumeric and
fixed by lowercasing. -/
theorem clean_word_fixed (ops : CharOps α) :
    ∀ (u : List α),
      (∀ d ∈ u, ops.isAlphanumeric d = true ∧ ops.toLowercase d = [d]) →
      clean_word ops u = u := by
  intro u
  induction u with
  | nil => intro _; rfl
  | cons d u ih =>
    intro h
    have hd := h d (List.mem_cons_self d u)
    have hu := ih (fun e he => h e (List.mem_cons_of_mem d he))
    rw [clean_word, List.filter_cons_of_pos hd.1, List.flatMap_cons, hd.2,
      List.singleton_append]
    rw [clean_word] at hu
    rw [hu]

/-- The keys of `updateCount acc w` are the keys of `acc` plus possibly
`w`. -/
theorem updateCount_keys (w : List α) :
    ∀ (acc : List (List α × Nat)), ∀ p ∈ updateCount acc w,
      p.1 ∈ acc.map Prod.fst ∨ p.1 = w := by
  intro acc
  induction acc with
  | nil =>
    intro p hp
    simp only [updateCount, List.mem_singleton] at hp
    subst hp
    exact Or.inr rfl
  | cons q rest ih =>
    intro p hp
    obtain ⟨k, v⟩ := q
    simp only [updateCount] at hp
    by_cases hw : w = k
    · rw [if_pos hw] at hp
      rcases List.mem_cons.mp hp with h | h
      · subst h; exact Or.inl (by simp)
      · exact Or.inl (by
          simp only [List.map_cons, List.mem_cons]
          exact Or.inr (List.mem_map_of_mem Prod.fst h))
    · rw [if_neg hw] at hp
      rcases List.mem_cons.mp hp with h | h
      · subst h; exact Or.inl (by simp)
      · rcases ih p h with h2 | h2
        · exact Or.inl (by
            simp only [List.map_cons, List.mem_cons]
            exact Or.inr h2)
        · exact Or.inr h2

/-- `updateCount` preserves positivity of the counts. -/
theorem updateCount_counts (w : List α) :
    ∀ (acc : List (List α × Nat)), (∀ p ∈ acc, 1 ≤ p.2) →
      ∀ p ∈ updateCount acc w, 1 ≤ p.2 := by
  intro acc
  induction acc with
  | nil =>
    intro _ p hp
    simp only [updateCount, List.mem_singleton] at hp
    subst hp
    exact Nat.le_refl 1
  | cons q rest ih =>
    intro h p hp
    obtain ⟨k, v⟩ := q
    simp only [updateCount] at hp
    by_cases hw : w = k
    · rw [if_pos hw] at hp
      rcases List.mem_cons.mp hp with h2 | h2
      · subst h2; exact Nat.le_add_left 1 v
      · exact h p (List.mem_cons_of_mem (k, v) h2)
    · rw [if_neg hw] at hp
      rcases List.mem_cons.mp hp with h2 | h2
      · subst h2; exact h (k, v) (List.mem_cons_self (k, v) rest)
      · exact ih (fun r hr => h r (List.mem_cons_of_mem (k, v) hr)) p h2

/-- Keys of the aggregation fold come from the accumulator or from the
consumed words. -/
theorem foldl_updateCount_keys :
    ∀ (ws : List (List α)) (acc : List (List α × Nat)),
      ∀ p ∈ ws.foldl updateCount acc, p.1 ∈ acc.map Prod.fst ∨ p.1 ∈ ws := by
  intro ws
  induction ws with
  | nil =>
    intro acc p hp
    exact Or.inl (List.mem_map_of_mem Prod.fst hp)
  | cons w ws ih =>
    intro acc p hp
    rw [List.foldl_cons] at hp
    rcases ih (updateCount acc w) p hp with h | h
    · rw [List.mem_map] at h
      obtain ⟨q, hq, hqe⟩ := h
      rcases updateCount_keys w acc q hq with h2 | h2
      · exact Or.inl (hqe ▸ h2)
      · refine Or.inr ?_
        rw [← hqe, h2]
        exact List.mem_cons_self w ws
    · exact Or.inr (List.mem_cons_of_mem w h)

/-- Counts of the aggregation fold are positive when the accumulator's
are. -/
theorem foldl_updateCount_counts :
    ∀ (ws : List (List α)) (acc : List (List α × Nat)),
      (∀ p ∈ acc, 1 ≤ p.2) → ∀ p ∈ ws.foldl updateCount acc, 1 ≤ p.2 := by
  intro ws
  induction ws with
  | nil => intro acc h p hp; exact h p hp
  | cons w ws ih =>
    intro acc h p hp
    rw [List.foldl_cons] at hp
    exact ih (updateCount acc w) (updateCount_counts w acc h) p hp

/-- A table with positive counts has at least as many occurrences as
entries. -/
theorem length_le_sum_counts :
    ∀ (l : List (List α × Nat)), (∀ p ∈ l, 1 ≤ p.2) →
      l.length ≤ (l.map Prod.snd).sum := by
  intro l
  induction l with
  | nil => intro _; exact Nat.le_refl 0
  | cons p l ih =>
    intro h
    simp only [List.length_cons, List.map_cons, List.sum_cons]
    have h1 : 1 ≤ p.2 := h p (List.mem_cons_self p l)
    have h2 := ih (fun q hq => h q (List.mem_cons_of_mem p hq))
    omega

/-- Once `max_by_key`'s fold holds a candidate, it never returns to
`none`. -/
theorem foldl_max_step_some {β : Type} :
    ∀ (l : List (β × Nat)) (q : β × Nat),
      ∃ r, l.foldl max_step (some q) = some r := by
  intro l
  induction l with
  | nil => intro q; exact ⟨q, rfl⟩
  | cons p l ih =>
    intro q
    rw [List.foldl_cons]
    have hstep : ∃ s, max_step (some q) p = some s := by
      simp only [max_step]
      by_cases h : q.2 ≤ p.2
      · exact ⟨p, if_pos h⟩
      · exact ⟨q, if_neg h⟩
    obtain ⟨s, hs⟩ := hstep
    rw [hs]
    exact ih s

/-- `max_by_key` over any iteration order returns `None` exactly on the
empty table. -/
theorem max_by_count_eq_none_iff {β : Type} (l : List (β × Nat)) :
    max_by_count l = none ↔ l = [] := by
  cases l with
  | nil => simp [max_by_count]
  | cons p l =>
    simp only [max_by_count, List.foldl_cons]
    have h : max_step (none : Option (β × Nat)) p = some p := rfl
    rw [h]
    obtain ⟨r, hr⟩ := foldl_max_step_some l p
    rw [hr]
    simp

/-- The element delivered by `max_by_key`'s fold is the initial candidate
or an element of the list. -/
theorem foldl_max_step_mem {β : Type} :
    ∀ (l : List (β × Nat)) (acc : Option (β × Nat)) (r : β × Nat),
      l.foldl max_step acc = some r → acc = some r ∨ r ∈ l := by
  intro l
  induction l with
  | nil => intro acc r h; exact Or.inl h
  | cons p l ih =>
    intro acc r h
    rw [List.foldl_cons] at h
    rcases ih (max_step acc p) r h with h2 | h2
    · cases acc with
      | none =>
        rw [Option.some_inj.mp h2.symm]
        exact Or.inr (List.mem_cons_self p l)
      | some q =>
        simp only [max_step] at h2
        by_cases hq : q.2 ≤ p.2
        · rw [if_pos hq] at h2
          rw [Option.some_inj.mp h2.symm]
          exact Or.inr (List.mem_cons_self p l)
        · rw [if_neg hq] at h2
          exact Or.inl h2
    · exact Or.inr (List.mem_cons_of_mem p h2)

/-- The element delivered by `max_by_key`'s fold has a count at least every
count in the list and at least the initial candidate's. -/
theorem foldl_max_step_ge {β : Type} :
    ∀ (l : List (β × Nat)) (acc : Option (β × Nat)) (r : β × Nat),
      l.foldl max_step acc = some r →
      (∀ p ∈ l, p.2 ≤ r.2) ∧ (∀ q, acc = some q → q.2 ≤ r.2) := by
  intro l
  induction l with
  | nil =>
    intro acc r h
    rw [List.foldl_nil] at h
    refine ⟨fun p hp => absurd hp (List.not_mem_nil p), fun q hq => ?_⟩
    rw [hq] at h
    rw [Option.some_inj.mp h]
  | cons p l ih =>
    intro acc r h
    rw [List.foldl_cons] at h
    obtain ⟨hl, hacc⟩ := ih (max_step acc p) r h
    have hstep : ∀ s, max_step acc p = some s → p.2 ≤ s.2 ∧
        (∀ q, acc = some q → q.2 ≤ s.2) := by
      intro s hs
      cases acc with
      | none =>
        simp only [max_step] at hs
        rw [Option.some_inj.mp hs.symm]
        exact ⟨Nat.le_refl p.2, fun q hq => by cases hq⟩
      | some q =>
        simp only [max_step] at hs
        by_cases hq : q.2 ≤ p.2
        · rw [if_pos hq] at hs
          rw [Option.some_inj.mp hs.symm]
          refine ⟨Nat.le_refl p.2, fun q2 hq2 => ?_⟩
          rw [Option.some_inj.mp hq2.symm]
          exact hq
        · rw [if_neg hq] at hs
          rw [Option.some_inj.mp hs.symm]
          refine ⟨Nat.le_of_not_le hq, fun q2 hq2 => ?_⟩
          rw [Option.some_inj.mp hq2.symm]
    obtain ⟨s, hs⟩ : ∃ s, max_step acc p = some s := by
      cases acc with
      | none => exact ⟨p, rfl⟩
      | some q =>
        simp only [max_step]
        by_cases hq : q.2 ≤ p.2
        · exact ⟨p, if_pos hq⟩
        · exact ⟨q, if_neg hq⟩
    obtain ⟨hps, hqs⟩ := hstep s hs
    have hsr : s.2 ≤ r.2 := hacc s hs
    refine ⟨fun p2 hp2 => ?_, fun q hq => ?_⟩
    · rcases List.mem_cons.mp hp2 with h2 | h2
      · rw [h2]
        exact Nat.le_trans hps hsr
      · exact hl p2 h2
    · exact Nat.le_trans (hqs q hq) hsr

/-- When one entry's count strictly dominates every other entry's,
`max_by_key` reports it on EVERY iteration order of the table. -/
theorem max_by_count_unique_max {β : Type} (l : List (β × Nat)) (m : β × Nat)
    (hm : m ∈ l) (hmax : ∀ p ∈ l, p ≠ m → p.2 < m.2) :
    max_by_count l = some m := by
  obtain ⟨r, hr⟩ : ∃ r, max_by_count l = some r := by
    cases l with
    | nil => exact absurd hm (List.not_mem_nil m)
    | cons p l =>
      simp only [max_by_count, List.foldl_cons]
      exact foldl_max_step_some l p
  have hrmem : r ∈ l := by
    rcases foldl_max_step_mem l none r hr with h | h
    · cases h
    · exact h
  have hmr : m.2 ≤ r.2 := (foldl_max_step_ge l none r hr).1 m hm
  by_cases hrm : r = m
  · rw [hr, hrm]
  · exact absurd (Nat.lt_of_lt_of_le (hmax r hrmem hrm) hmr) (Nat.lt_irrefl r.2)

/-- Every key of the frequency table built by `analyze_text` is
non-empty. -/
theorem analyze_text_keys_ne_nil (ops : CharOps α) (text : List α)
    (config : Config α) :
    ∀ p ∈ analyze_text ops text config, p.1 ≠ [] := by
  intro p hp hnil
  rw [analyze_text] at hp
  rcases foldl_updateCount_keys _ [] p hp with h | h
  · simp at h
  · obtain ⟨h1, _⟩ := List.mem_filter.mp h
    obtain ⟨_, h2⟩ := List.mem_filter.mp h1
    rw [hnil] at h2
    simp at h2

/-- Filtering by `A` ignores a leading run of characters failing `A`. -/
theorem filter_dropWhile_not (A : α → Bool) :
    ∀ (l : List α), l.filter A = (l.dropWhile (fun c => !A c)).filter A := by
  intro l
  induction l with
  | nil => rfl
  | cons c l ih =>
    by_cases h : A c
    · simp [List.dropWhile_cons, h]
    · have hA : A c = false := by
        exact Bool.not_eq_true (A c) ▸ eq_false_of_ne_true h
      simp only [List.dropWhile_cons, hA, Bool.not_false, if_true]
      rw [List.filter_cons_of_neg (by simp [hA]), ih]

/-- When everything that survives `trim_matches` satisfies `A`, keeping the
`A`-characters of the word is the same as trimming the non-`A` ends: the
normalizers of the two binaries coincide on such words. -/
theorem trim_filter_eq (A : α → Bool) (t : List α)
    (h : ∀ c ∈ trim_matches (fun c => !A c) t, A c = true) :
    t.filter A = trim_matches (fun c => !A c) t := by
  have key : ∀ c ∈ ((t.dropWhile (fun c => !A c)).reverse.dropWhile
      (fun c => !A c)), A c = true := by
    intro c hc
    refine h c ?_
    rw [trim_matches]
    exact List.mem_reverse.mpr hc
  calc t.filter A
      = (t.dropWhile (fun c => !A c)).filter A := filter_dropWhile_not A t
    _ = ((t.dropWhile (fun c => !A c)).reverse.filter A).reverse := by
          rw [List.filter_reverse, List.reverse_reverse]
    _ = (((t.dropWhile (fun c => !A c)).reverse.dropWhile
          (fun c => !A c)).filter A).reverse := by
          rw [← filter_dropWhile_not A ((t.dropWhile (fun c => !A c)).reverse)]
    _ = ((t.dropWhile (fun c => !A c)).reverse.dropWhile
          (fun c => !A c)).reverse := by
          rw [List.filter_eq_self.mpr key]
    _ = trim_matches (fun c => !A c) t := rfl

/-- Away from the capital sigma, `str_to_lowercase_go` is the character-wise
flat map of `char::to_lowercase`, whatever characters precede it. -/
theorem str_to_lowercase_go_no_sigma (ops : CharOps α) (sig : SigmaCasing α) :
    ∀ (s before : List α), (∀ c ∈ s, sig.capitalSigma c = false) →
      str_to_lowercase_go ops sig before s = s.flatMap ops.toLowercase := by
  intro s
  induction s with
  | nil => intro before _; rfl
  | cons c rest ih =>
    intro before h
    have hc : sig.capitalSigma c = false := h c (List.mem_cons_self c rest)
    simp only [str_to_lowercase_go]
    rw [if_neg (by rw [hc]; exact Bool.false_ne_true)]
    rw [ih (c :: before) (fun d hd => h d (List.mem_cons_of_mem c hd)),
      List.flatMap_cons]

/-- On a string containing no capital sigma, `str::to_lowercase` agrees with
the character-wise flat map of `char::to_lowercase`. -/
theorem str_to_lowercase_no_sigma (ops : CharOps α) (sig : SigmaCasing α)
    (s : List α) (h : ∀ c ∈ s, sig.capitalSigma c = false) :
    str_to_lowercase ops sig s = s.flatMap ops.toLowercase :=
  str_to_lowercase_go_no_sigma ops sig s [] h

/-- On a candidate token whose trimmed form is purely alphanumeric and free
of the capital sigma, the normalizer of main.rs agrees with `clean_word` of
file_parser.rs. -/
theorem normalize_eq_clean (ops : CharOps α) (sig : SigmaCasing α) (t : List α)
    (h : ∀ c ∈ trim_matches (fun c => !ops.isAlphanumeric c) t,
      ops.isAlphanumeric c = true ∧ sig.capitalSigma c = false) :
    normalize_main ops sig t = clean_word ops t := by
  rw [normalize_main,
    str_to_lowercase_no_sigma ops sig _ (fun c hc => (h c hc).2),
    clean_word, trim_filter_eq ops.isAlphanumeric t (fun c hc => (h c hc).1)]

/-- The Final_Sigma rule makes the two binaries differ even on purely
alphabetic candidates: on the text consisting of the Greek capital alpha
followed by the capital sigma, `str::to_lowercase` in main.rs produces
alpha followed by the FINAL small sigma U+03C2 (the sigma is word-final),
while `clean_word` in file_parser.rs lowercases character-wise and produces
alpha followed by the small sigma U+03C3, so the two tables differ. -/
theorem sigma_pipelines_differ :
    analyze_text_main rustCharOps rustSigmaCasing
      [Char.ofNat 0x391, Char.ofNat 0x3A3] ⟨none, none⟩ =
      [([Char.ofNat 0x3B1, Char.ofNat 0x3C2], 1)] ∧
    analyze_text rustCharOps [Char.ofNat 0x391, Char.ofNat 0x3A3]
      ⟨none, none⟩ = [([Char.ofNat 0x3B1, Char.ofNat 0x3C3], 1)] := by
  refine ⟨by decide, by decide⟩

/-! ## The claims -/

/-- Claim C1 (code bug): the spec mandates a fixed, reproducible tie-break
for the most-common word, but `display_stats` (and main.rs) computes
`freqs.iter().max_by_key(|&(_, count)| count)` over a `HashMap`, whose
iteration order is unspecified and varies between runs.  On the input
`"ant bee"` with no filters both tokens have count 1, the two possible
iteration orders of the table are the two permutations below, and
`max_by_key` (which keeps the last maximal element) reports `"bee"` on one
order and `"ant"` on the other: the reported word is not a function of the
frequency table, so no fixed rule is implemented. -/
theorem c1_tie_break_order_dependent :
    analyze_text rustCharOps (chars "ant bee") ⟨none, none⟩ =
      [(chars "ant", 1), (chars "bee", 1)] ∧
    List.Perm [(chars "bee", 1), (chars "ant", 1)]
      [(chars "ant", 1), (chars "bee", 1)] ∧
    (max_by_count [(chars "ant", 1), (chars "bee", 1)]).map Prod.fst =
      some (chars "bee") ∧
    (max_by_count [(chars "bee", 1), (chars "ant", 1)]).map Prod.fst =
      some (chars "ant") := by
  refine ⟨by decide, by decide, by decide, by decide⟩

/-- Claim C2, counterexample: `analyze_text`'s filter compares
`word.len()`, the length in UTF-8 BYTES, with `min_length`, not the length
in characters.  The one-character token `"é"` (U+00E9, already normalized:
alphanumeric and lowercase) is 2 bytes long, so with `min_length = Some 2`
the code accepts it although its character count 1 is below the bound. -/
theorem c2_counterexample :
    long_enough rustCharOps ⟨some 2, none⟩ [Char.ofNat 0xE9] = true ∧
      ¬(2 ≤ ([Char.ofNat 0xE9] : List Char).length) := by
  refine ⟨by decide, by decide⟩

/-- Claim C2, amended: with `min_length = Some n` the length constraint
accepts a token exactly when its length measured in UTF-8 bytes after
normalization (Rust's `str::len`) is at least `n` (inclusive bound); the
bound is on bytes, not on characters. -/
theorem c2_min_length_bytes (ops : CharOps α) (config : Config α) (n : Nat)
    (word : List α) (h : config.min_length = some n) :
    long_enough ops config word = true ↔ n ≤ str_len ops word := by
  simp only [long_enough, h]
  exact decide_eq_true_iff

/-- Witness for `c2_min_length_bytes` at a concrete configuration and
token. -/
theorem c2_min_length_bytes_witness :
    long_enough rustCharOps ⟨some 3, none⟩ (chars "word") = true ↔
      3 ≤ str_len rustCharOps (chars "word") :=
  c2_min_length_bytes rustCharOps ⟨some 3, none⟩ 3 (chars "word") rfl

/-- Claim C3, counterexample: the prefix constraint compares the raw
supplied character against the normalized (lowercased) token with
`word.starts_with(c)` — no case folding is applied to the supplied
character (`Config::from_args` stores the argument's first character as
is).  Supplying `'A'` therefore rejects the token `"apple"` while
supplying `'a'` accepts it: acceptance DOES depend on the letter case in
which the prefix character was supplied. -/
theorem c3_counterexample :
    starts_correct (⟨none, some 'A'⟩ : Config Char) (chars "apple") = false ∧
      starts_correct (⟨none, some 'a'⟩ : Config Char) (chars "apple") = true := by
  refine ⟨by decide, by decide⟩

/-- Claim C3, amended: with `start_prefix` present the filter accepts a
token (on the prefix constraint) if and only if the token begins with
exactly the supplied character, compared without any case folding, so
acceptance depends on the case in which the character was supplied. -/
theorem c3_starts_with_exact (config : Config α) (c : α) (word : List α)
    (h : config.starts_with = some c) :
    starts_correct config word = true ↔ word.head? = some c := by
  simp only [starts_correct, h]
  cases word with
  | nil => simp [starts_with_char]
  | cons d w => simp [starts_with_char]

/-- Witness for `c3_starts_with_exact` at a concrete configuration and
token. -/
theorem c3_starts_with_exact_witness :
    starts_correct (⟨none, some 'a'⟩ : Config Char) (chars "ant") = true ↔
      (chars "ant").head? = some 'a' :=
  c3_starts_with_exact (⟨none, some 'a'⟩ : Config Char) 'a' (chars "ant") rfl

/-- Claim C4, counterexample: keys of the frequency table need not be
alphanumeric-only.  The candidate `"İ"` (U+0130) is alphanumeric, so
`clean_word` keeps it and lowercases it to the two-character sequence
U+0069 U+0307; the combining dot above U+0307 is a nonspacing mark, for
which Rust's `char::is_alphanumeric` is false, yet it is stored in the
key. -/
theorem c4_counterexample :
    analyze_text rustCharOps [Char.ofNat 0x130] ⟨none, none⟩ =
      [([Char.ofNat 0x69, Char.ofNat 0x307], 1)] ∧
    rustCharOps.isAlphanumeric (Char.ofNat 0x307) = false := by
  refine ⟨by decide, by decide⟩

/-- Claim C4, amended: every key of the table built by `analyze_text` is
non-empty and every count is at least 1, unconditionally; and provided the
lowercase expansion of every alphanumeric character of the text consists of
alphanumeric, non-whitespace characters fixed by lowercasing (true
throughout ASCII, false in full Unicode at U+0130), every key is a
non-empty lowercase alphanumeric-only string with no whitespace. -/
theorem c4_table_invariant_amended (ops : CharOps α) (text : List α)
    (config : Config α)
    (h : ∀ c ∈ text, ops.isAlphanumeric c = true →
      ∀ d ∈ ops.toLowercase c, ops.isAlphanumeric d = true ∧
        ops.isWhitespace d = false ∧ ops.toLowercase d = [d]) :
    ∀ p ∈ analyze_text ops text config, p.1 ≠ [] ∧ 1 ≤ p.2 ∧
      (p.1.all (fun d => ops.isAlphanumeric d && !ops.isWhitespace d &&
        decide (ops.toLowercase d = [d]))) = true := by
  intro p hp
  refine ⟨analyze_text_keys_ne_nil ops text config p hp, ?_, ?_⟩
  · rw [analyze_text] at hp
    exact foldl_updateCount_counts _ []
      (fun q hq => absurd hq (List.not_mem_nil q)) p hp
  · rw [List.all_eq_true]
    intro d hd
    rw [analyze_text] at hp
    rcases foldl_updateCount_keys _ [] p hp with hk | hk
    · simp at hk
    · obtain ⟨hk1, _⟩ := List.mem_filter.mp hk
      obtain ⟨hk2, _⟩ := List.mem_filter.mp hk1
      rw [List.mem_map] at hk2
      obtain ⟨t, ht, hteq⟩ := hk2
      rw [← hteq] at hd
      obtain ⟨c, hc, hcA, hdc⟩ := clean_word_chars ops t d hd
      have hctext : c ∈ text := split_whitespace_chars ops.isWhitespace text t ht c hc
      obtain ⟨hA, hW, hL⟩ := h c hctext hcA d hdc
      simp [hA, hW, hL]

/-- Witness for `c4_table_invariant_amended`: the single entry of the table
for the text `"Rust"` satisfies the invariant. -/
theorem c4_table_invariant_amended_witness :
    chars "rust" ≠ [] ∧ 1 ≤ 1 ∧
      ((chars "rust").all (fun d => rustCharOps.isAlphanumeric d &&
        !rustCharOps.isWhitespace d &&
        decide (rustCharOps.toLowercase d = [d]))) = true :=
  c4_table_invariant_amended rustCharOps (chars "Rust") ⟨none, none⟩
    (by decide) (chars "rust", 1) (by decide)

/-- Claim C5: for every table produced by the pipeline, `total_words` is the
sum of all counts, `unique_words` is the number of entries, and
`unique_words ≤ total_words` (every count is at least 1). -/
theorem c5_report_totals (ops : CharOps α) (text : List α) (config : Config α) :
    total_words (analyze_text ops text config) =
      ((analyze_text ops text config).map Prod.snd).sum ∧
    unique_words (analyze_text ops text config) =
      (analyze_text ops text config).length ∧
    unique_words (analyze_text ops text config) ≤
      total_words (analyze_text ops text config) := by
  refine ⟨rfl, rfl, ?_⟩
  have hpos : ∀ p ∈ analyze_text ops text config, 1 ≤ p.2 := by
    rw [analyze_text]
    exact foldl_updateCount_counts _ []
      (fun q hq => absurd hq (List.not_mem_nil q))
  exact length_le_sum_counts _ hpos

/-- Witness for `c5_report_totals` at a concrete text. -/
theorem c5_report_totals_witness :
    unique_words (analyze_text rustCharOps (chars "a b a") ⟨none, none⟩) ≤
      total_words (analyze_text rustCharOps (chars "a b a") ⟨none, none⟩) :=
  (c5_report_totals rustCharOps (chars "a b a") ⟨none, none⟩).2.2

/-- Claim C6: the most-common entry is absent exactly when the frequency
table is empty (over any iteration order), and the empty input text
produces — as a normally returned value, not a failure — the empty table,
zero totals, and the fallback output line `"No words found after
filtering."`. -/
theorem c6_empty_table_normal (ops : CharOps α) (config : Config α) :
    (∀ freqs : List (List α × Nat), max_by_count freqs = none ↔ freqs = []) ∧
    analyze_text ops ([] : List α) config = [] ∧
    total_words (analyze_text ops ([] : List α) config) = 0 ∧
    unique_words (analyze_text ops ([] : List α) config) = 0 ∧
    display_last_line (analyze_text ops ([] : List α) config) =
      StatLine.message "No words found after filtering." := by
  have hempty : analyze_text ops ([] : List α) config = [] := by
    rw [analyze_text, split_whitespace]
    simp [split_whitespace_go]
  refine ⟨fun freqs => max_by_count_eq_none_iff freqs, hempty, ?_, ?_, ?_⟩
  · rw [hempty]; rfl
  · rw [hempty]; rfl
  · rw [hempty]; rfl

/-- Witness for `c6_empty_table_normal`: the empty table has no most-common
entry. -/
theorem c6_empty_table_normal_witness :
    max_by_count ([] : List (List Char × Nat)) = none :=
  ((c6_empty_table_normal rustCharOps (⟨none, none⟩ : Config Char)).1 []).mpr rfl

/-- Claim C7, counterexample: normalization is NOT idempotent in full
Unicode.  `clean_word` keeps the alphanumeric `"İ"` (U+0130) and lowercases
it to U+0069 U+0307, but the combining dot above U+0307 is not
alphanumeric, so a second normalization removes it. -/
theorem c7_counterexample :
    clean_word rustCharOps (clean_word rustCharOps [Char.ofNat 0x130]) ≠
      clean_word rustCharOps [Char.ofNat 0x130] := by
  decide

/-- Claim C7, amended: normalization is idempotent on every string whose
alphanumeric characters lowercase to alphanumeric characters fixed by
lowercasing (true throughout ASCII; false in full Unicode at U+0130, whose
lowercasing contains the non-alphanumeric U+0307). -/
theorem c7_idempotent_amended (ops : CharOps α) (w : List α)
    (h : ∀ c ∈ w, ops.isAlphanumeric c = true →
      ∀ d ∈ ops.toLowercase c, ops.isAlphanumeric d = true ∧
        ops.toLowercase d = [d]) :
    clean_word ops (clean_word ops w) = clean_word ops w := by
  apply clean_word_fixed
  intro d hd
  obtain ⟨c, hc, hcA, hdc⟩ := clean_word_chars ops w d hd
  exact h c hc hcA d hdc

/-- Witness for `c7_idempotent_amended` on a concrete ASCII string. -/
theorem c7_idempotent_amended_witness :
    clean_word rustCharOps (clean_word rustCharOps (chars "Hello")) =
      clean_word rustCharOps (chars "Hello") :=
  c7_idempotent_amended rustCharOps (chars "Hello") (by decide)

/-- Claim C8: on the input `"The the THE fox"` with both constraints absent
the pipeline produces the table with `"the" ↦ 3` and `"fox" ↦ 1`, so
`total_words = 4`, `unique_words = 2`, and — on every iteration order of
the table, the maximum being unique — the most common word is `"the"` with
count 3. -/
theorem c8_scenario_the_fox :
    analyze_text rustCharOps (chars "The the THE fox") ⟨none, none⟩ =
      [(chars "the", 3), (chars "fox", 1)] ∧
    total_words (analyze_text rustCharOps (chars "The the THE fox")
      ⟨none, none⟩) = 4 ∧
    unique_words (analyze_text rustCharOps (chars "The the THE fox")
      ⟨none, none⟩) = 2 ∧
    ∀ l : List (List Char × Nat),
      l.Perm (analyze_text rustCharOps (chars "The the THE fox") ⟨none, none⟩) →
        max_by_count l = some (chars "the", 3) := by
  have ht : analyze_text rustCharOps (chars "The the THE fox") ⟨none, none⟩ =
      [(chars "the", 3), (chars "fox", 1)] := by decide
  refine ⟨ht, by decide, by decide, ?_⟩
  intro l hl
  rw [ht] at hl
  apply max_by_count_unique_max
  · exact hl.mem_iff.mpr (by decide)
  · intro p hp hne
    have hp2 := hl.mem_iff.mp hp
    rcases List.mem_cons.mp hp2 with h1 | h1
    · exact absurd h1 hne
    · rw [List.mem_singleton] at h1
      rw [h1]
      decide

/-- Witness for `c8_scenario_the_fox`: the other iteration order of the
table also reports `"the"` with count 3. -/
theorem c8_scenario_the_fox_witness :
    max_by_count [(chars "fox", 1), (chars "the", 3)] =
      some (chars "the", 3) :=
  c8_scenario_the_fox.2.2.2 [(chars "fox", 1), (chars "the", 3)] (by decide)

/-- Claim C9: `min_length = Some 0` yields exactly the table of
`min_length = None` for every text and any prefix setting (the zero bound
is vacuously satisfied by every word), and candidates that normalize to the
empty string are still dropped: no key of the table is empty. -/
theorem c9_min_length_zero_vacuous (ops : CharOps α) (text : List α)
    (sw : Option α) :
    analyze_text ops text ⟨some 0, sw⟩ = analyze_text ops text ⟨none, sw⟩ ∧
    ∀ p ∈ analyze_text ops text ⟨some 0, sw⟩, p.1 ≠ [] := by
  constructor
  · have hfun : (fun w : List α => filter_pred ops ⟨some 0, sw⟩ w) =
        (fun w => filter_pred ops ⟨none, sw⟩ w) := by
      funext w
      have h1 : long_enough ops ⟨some 0, sw⟩ w = true := by
        simp [long_enough, Nat.zero_le]
      have h2 : long_enough ops ⟨none, sw⟩ w = true := rfl
      simp only [filter_pred, h1, h2]
      rfl
    simp only [analyze_text]
    rw [hfun]
  · exact analyze_text_keys_ne_nil ops text ⟨some 0, sw⟩

/-- Witness for `c9_min_length_zero_vacuous`: the key of the concrete table
for the text `"hey"` under `min_length = Some 0` is non-empty. -/
theorem c9_min_length_zero_vacuous_witness :
    chars "hey" ≠ [] :=
  (c9_min_length_zero_vacuous rustCharOps (chars "hey") none).2
    (chars "hey", 1) (by decide)

/-- Claim C10, counterexample: the two binaries do NOT implement the same
pipeline.  main.rs only trims non-alphanumeric characters from the ends of
a candidate (`trim_matches`), keeping interior ones, while file_parser.rs
removes every non-alphanumeric character.  On the text `"a-b"` with no
filters, main.rs stores the key `"a-b"` and file_parser.rs the key
`"ab"`. -/
theorem c10_counterexample :
    analyze_text_main rustCharOps rustSigmaCasing (chars "a-b") ⟨none, none⟩ ≠
      analyze_text rustCharOps (chars "a-b") ⟨none, none⟩ ∧
    analyze_text_main rustCharOps rustSigmaCasing (chars "a-b") ⟨none, none⟩ =
      [(chars "a-b", 1)] ∧
    analyze_text rustCharOps (chars "a-b") ⟨none, none⟩ =
      [(chars "ab", 1)] := by
  refine ⟨by decide, by decide, by decide⟩

/-- Claim C10, amended: the two pipelines agree on every text whose
candidate tokens, after trimming non-alphanumeric characters from both
ends, contain only alphanumeric characters none of which is the Greek
capital sigma U+03A3; in general they differ, on two counts: main.rs keeps
interior non-alphanumeric characters that file_parser.rs removes, and
main.rs's `str::to_lowercase` lowercases a word-final capital sigma to ς
where file_parser.rs's character-wise lowercasing gives σ (see
`sigma_pipelines_differ`). -/
theorem c10_pipelines_agree_amended (ops : CharOps α) (sig : SigmaCasing α)
    (text : List α) (config : Config α)
    (h : ∀ t ∈ split_whitespace ops.isWhitespace text,
      ∀ c ∈ trim_matches (fun c => !ops.isAlphanumeric c) t,
        ops.isAlphanumeric c = true ∧ sig.capitalSigma c = false) :
    analyze_text_main ops sig text config = analyze_text ops text config := by
  simp only [analyze_text_main, analyze_text]
  rw [List.map_congr_left (fun t ht => normalize_eq_clean ops sig t (h t ht))]

/-- Witness for `c10_pipelines_agree_amended` on a concrete text. -/
theorem c10_pipelines_agree_amended_witness :
    analyze_text_main rustCharOps rustSigmaCasing (chars "Fox fox")
      ⟨none, none⟩ =
      analyze_text rustCharOps (chars "Fox fox") ⟨none, none⟩ :=
  c10_pipelines_agree_amended rustCharOps rustSigmaCasing (chars "Fox fox")
    ⟨none, none⟩ (by decide)

end WordFreq
